import Mathlib

/-!
Shallow embedding of the core ETL/analytics layer of `src/app.py`
(a pandas/streamlit market-analysis app), together with theorems that
settle the frozen claims about it.

Modelling conventions:
* Python/pandas floats are embedded as exact rationals (`ℚ`); float
  rounding noise is not modelled, but every explicit rounding step in the
  source (`round(x, 2)`) is modelled exactly (half-even on rationals).
* A pandas `NaN` in a nullable column is `Option.none`.
* `pd.Timestamp` order is all that matters to the code, so dates are `ℤ`
  (the result of the tolerant date parser; an unparseable date is `none`).
* A CSV upload is modelled after the two `pd.read_csv` attempts: each
  input carries the table the primary-encoding read would produce (or
  `none` if that read raises) and likewise for the `latin-1` retry.
* Python strings are compared lexicographically by code point; `lexLT`
  below is that order on `List Char`.
-/

/-- Code-point lexicographic strict order on char lists, mirroring how
Python compares the strings that `sort_values` sorts on. -/
def lexLT : List Char → List Char → Bool
  | [], [] => false
  | [], _ :: _ => true
  | _ :: _, [] => false
  | a :: as, b :: bs => if a < b then true else if b < a then false else lexLT as bs

/-- `s < t` for Python strings. -/
def strLTb (s t : String) : Bool := lexLT s.data t.data

/-- `s ≤ t` for Python strings. -/
def strLEb (s t : String) : Bool := !(strLTb t s)

/-- Elementwise model of Python `str.strip()` on a header cell. -/
def trimStr (s : String) : String :=
  String.mk (((s.data.dropWhile Char.isWhitespace).reverse.dropWhile Char.isWhitespace).reverse)

/-- ASCII lower-casing of one char, as `str.lower()` acts on the
filenames this app sees. -/
def lowChar (c : Char) : Char :=
  if 'A' ≤ c ∧ c ≤ 'Z' then Char.ofNat (c.toNat + 32) else c

/-- Model of `filename.lower()`. -/
def lowerStr (s : String) : String := String.mk (s.data.map lowChar)

/-- `needle` is a prefix of `hay` (chars). -/
def startsWithCh : List Char → List Char → Bool
  | [], _ => true
  | _ :: _, [] => false
  | c :: cs, d :: ds => c == d && startsWithCh cs ds

/-- `needle` occurs as a contiguous substring of `hay`: Python's
`needle in hay` on strings. -/
def containsCh (needle : List Char) : List Char → Bool
  | [] => startsWithCh needle []
  | d :: ds => startsWithCh needle (d :: ds) || containsCh needle ds

/-- `COMPANY_LABELS` from `src/app.py` (an insertion-ordered dict there,
hence an ordered association list here). -/
def COMPANY_LABELS : List (String × String) :=
  [("general dynamics", "General Dynamics"),
   ("lockheed martin", "Lockheed Martin"),
   ("northrop grumman", "Northrop Grumman"),
   ("rtx corp", "RTX Corp"),
   ("boeing", "Boeing")]

/-- Model of `filename.rsplit(".", 1)[0]`: everything before the last
dot, or the whole string when there is no dot. -/
def stripExt (s : String) : String :=
  let r := s.data.reverse
  if r.contains '.' then String.mk (((r.dropWhile (fun c => !(c == '.'))).drop 1).reverse)
  else s

/-- `infer_company_name` from `src/app.py`: first alias whose key occurs
in the lower-cased filename wins; otherwise the filename without its
extension. -/
def infer_company_name (filename : String) : String :=
  let lower_name := lowerStr filename
  match COMPANY_LABELS.find? (fun kv => containsCh kv.1.data lower_name.data) with
  | some kv => kv.2
  | none => stripExt filename

/-- The four characters `clean_numeric_column` strips: no-break space,
space, comma, dollar sign (the sequential `str.replace` calls amount to
a filter). -/
def stripMoney (s : String) : List Char :=
  s.data.filter (fun c => !(c == '\u00A0' || c == ' ' || c == ',' || c == '$'))

def isDigitCh (c : Char) : Bool := '0' ≤ c && c ≤ '9'

def digVal (c : Char) : ℕ := c.toNat - '0'.toNat

def natOfDigits (l : List Char) : ℕ := l.foldl (fun a c => 10 * a + digVal c) 0

def allDigits (l : List Char) : Bool := l.all isDigitCh

/-- Unsigned decimal mantissa: `123`, `123.45`, `123.`, `.45`. -/
def parseMant (l : List Char) : Option ℚ :=
  let intPart := l.takeWhile isDigitCh
  let rest := l.dropWhile isDigitCh
  match rest with
  | [] => if intPart.isEmpty then none else some (natOfDigits intPart : ℚ)
  | c :: frac =>
    if c == '.' && allDigits frac && !(intPart.isEmpty && frac.isEmpty) then
      some ((natOfDigits intPart : ℚ) + (natOfDigits frac : ℚ) / (10 : ℚ) ^ frac.length)
    else none

/-- Signed mantissa. -/
def parseSigned : List Char → Option ℚ
  | '-' :: rest => (parseMant rest).map (fun q => -q)
  | '+' :: rest => parseMant rest
  | l => parseMant l

/-- Signed exponent of scientific form. -/
def parseExpInt : List Char → Option ℤ
  | '-' :: ds => if !ds.isEmpty && allDigits ds then some (-(natOfDigits ds : ℤ)) else none
  | '+' :: ds => if !ds.isEmpty && allDigits ds then some (natOfDigits ds : ℤ) else none
  | ds => if !ds.isEmpty && allDigits ds then some (natOfDigits ds : ℤ) else none

/-- The numeric grammar `pd.to_numeric(errors="coerce")` accepts for the
price cells this app can see: an optionally signed decimal with an
optional scientific exponent; anything else coerces to `none` (`NaN`).
(Infinite values like `"inf"` are not representable in `ℚ` and are
mapped to `none` as well.) -/
def parseNumCh (l : List Char) : Option ℚ :=
  let mant := l.takeWhile (fun c => !(c == 'e' || c == 'E'))
  let rest := l.dropWhile (fun c => !(c == 'e' || c == 'E'))
  match rest with
  | [] => parseSigned mant
  | _ :: ex =>
    match parseSigned mant, parseExpInt ex with
    | some m, some e => some (m * (10 : ℚ) ^ e)
    | _, _ => none

/-- `clean_numeric_column` from `src/app.py`, elementwise: strip the four
noise characters, then coerce to a number, `none` on failure. -/
def clean_numeric_column (s : String) : Option ℚ := parseNumCh (stripMoney s)

/-! ### Order lemmas for the sort keys -/

lemma lexLT_irrefl : ∀ l : List Char, lexLT l l = false
  | [] => rfl
  | a :: as => by simp [lexLT, lexLT_irrefl as]

lemma lexLT_trans : ∀ l1 l2 l3 : List Char,
    lexLT l1 l2 = true → lexLT l2 l3 = true → lexLT l1 l3 = true := by
  intro l1
  induction l1 with
  | nil =>
    intro l2 l3 h12 h23
    cases l2 with
    | nil => simpa [lexLT] using h23
    | cons b bs =>
      cases l3 with
      | nil => simp [lexLT] at h23
      | cons c cs => simp [lexLT]
  | cons a as ih =>
    intro l2 l3 h12 h23
    cases l2 with
    | nil => simp [lexLT] at h12
    | cons b bs =>
      cases l3 with
      | nil => simp [lexLT] at h23
      | cons c cs =>
        simp only [lexLT] at h12 h23 ⊢
        rcases lt_trichotomy a b with hab | hab | hab
        · rcases lt_trichotomy b c with hbc | hbc | hbc
          · simp [lt_trans hab hbc]
          · subst hbc; simp [hab]
          · simp [hbc, not_lt_of_lt hbc] at h23
        · subst hab
          rcases lt_trichotomy a c with hac | hac | hac
          · simp [hac]
          · subst hac
            simp [lt_irrefl] at h12 h23 ⊢
            exact ih _ _ h12 h23
          · simp [hac, not_lt_of_lt hac] at h23
        · simp [hab, not_lt_of_lt hab] at h12

lemma lexLT_conn : ∀ l1 l2 : List Char,
    lexLT l1 l2 = false → lexLT l2 l1 = false → l1 = l2 := by
  intro l1
  induction l1 with
  | nil =>
    intro l2 h12 _
    cases l2 with
    | nil => rfl
    | cons b bs => simp [lexLT] at h12
  | cons a as ih =>
    intro l2 h12 h21
    cases l2 with
    | nil => simp [lexLT] at h21
    | cons b bs =>
      simp only [lexLT] at h12 h21
      rcases lt_trichotomy a b with hab | hab | hab
      · simp [hab] at h12
      · subst hab
        simp [lt_irrefl] at h12 h21
        exact congrArg (a :: ·) (ih _ h12 h21)
      · simp [hab] at h21

lemma strLEb_eq_true_iff (s t : String) : strLEb s t = true ↔ lexLT t.data s.data = false := by
  simp [strLEb, strLTb]

lemma strLEb_total (s t : String) : strLEb s t = true ∨ strLEb t s = true := by
  cases hst : lexLT t.data s.data with
  | false => exact Or.inl ((strLEb_eq_true_iff s t).2 hst)
  | true =>
    cases hts : lexLT s.data t.data with
    | false => exact Or.inr ((strLEb_eq_true_iff t s).2 hts)
    | true =>
      have h := lexLT_trans _ _ _ hst hts
      simp [lexLT_irrefl] at h

lemma strLEb_trans {s t u : String} (h1 : strLEb s t = true) (h2 : strLEb t u = true) :
    strLEb s u = true := by
  rw [strLEb_eq_true_iff] at h1 h2 ⊢
  cases hus : lexLT u.data s.data with
  | false => rfl
  | true =>
    cases hst : lexLT s.data t.data with
    | false =>
      have hdata := lexLT_conn _ _ hst h1
      rw [hdata] at hus
      rw [hus] at h2
      cases h2
    | true =>
      have h := lexLT_trans _ _ _ hus hst
      rw [h] at h2
      cases h2

/-! ### Data model -/

/-- One row of the consolidated frame before `return_pct` exists:
columns `company`, `date`, `price` built in `load_and_transform`. -/
structure Row where
  company : String
  date : ℤ
  price : ℚ
deriving DecidableEq

/-- One row of the enriched frame: the same columns plus the nullable
`return_pct` column computed by the per-company `pct_change`. -/
structure RowR where
  company : String
  date : ℤ
  price : ℚ
  return_pct : Option ℚ
deriving DecidableEq

/-- The `(company, date)` ascending lexicographic key of
`data.sort_values(["company", "date"])`. -/
def consLE (a b : Row) : Prop :=
  strLTb a.company b.company = true ∨ (a.company = b.company ∧ a.date ≤ b.date)

instance : DecidableRel consLE := fun a b =>
  inferInstanceAs (Decidable (strLTb a.company b.company = true ∨
    (a.company = b.company ∧ a.date ≤ b.date)))

/-- `data.sort_values(["company", "date"])`: a stable sort on that key
(pandas multi-column sorts use a stable lexsort). -/
def sortRows (l : List Row) : List Row := List.insertionSort consLE l

/-- A consolidated dataset sorted ascending by `(company, date)`. -/
def sortedRows (l : List Row) : Prop := List.Chain' consLE l

/-- The running "last price seen per company" state that
`groupby("company")["price"].pct_change()` maintains: most recent
binding wins. -/
def lastPrice : List (String × ℚ) → String → Option ℚ
  | [], _ => none
  | (c, p) :: st, d => if c = d then some p else lastPrice st d

/-- One pass of the grouped `pct_change` (times 100): each row's return
is computed against the previous row of the same company, `none` when
there is no such row. -/
def pctChangeGo : List Row → List (String × ℚ) → List RowR
  | [], _ => []
  | r :: rest, st =>
    { company := r.company, date := r.date, price := r.price,
      return_pct := (lastPrice st r.company).map
        (fun prev => 100 * ((r.price - prev) / prev)) }
      :: pctChangeGo rest ((r.company, r.price) :: st)

/-- The Return Calculator:
`data["return_pct"] = data.groupby("company")["price"].pct_change() * 100.0`. -/
def addReturns (rows : List Row) : List RowR := pctChangeGo rows []

/-- The chronological price sequence of one company inside a
`(company, date)`-sorted dataset. -/
def entityPrices (c : String) (rows : List Row) : List ℚ :=
  (rows.filter (fun r => r.company == c)).map Row.price

/-- The `return_pct` sequence of one company, in row order. -/
def entityReturns (c : String) (rows : List RowR) : List (Option ℚ) :=
  (rows.filter (fun r => r.company == c)).map RowR.return_pct

/-- The returns the specification prescribes for a price sequence, given
the previous price (if any): `none` first, then `100 * (p_i / p_(i-1) - 1)`. -/
def seqReturns : Option ℚ → List ℚ → List (Option ℚ)
  | _, [] => []
  | none, p :: ps => none :: seqReturns (some p) ps
  | some q, p :: ps => some (100 * (p / q - 1)) :: seqReturns (some p) ps

/-! ### Event Extractor -/

/-- The event-table sort key of
`sort_values(["date", "company"], ascending=[False, True])`:
date descending, then company ascending. -/
def eventRel (a b : RowR) : Prop :=
  b.date < a.date ∨ (a.date = b.date ∧ strLEb a.company b.company = true)

instance : DecidableRel eventRel := fun a b =>
  inferInstanceAs (Decidable (b.date < a.date ∨
    (a.date = b.date ∧ strLEb a.company b.company = true)))

instance : IsTotal RowR eventRel where
  total a b := by
    rcases lt_trichotomy a.date b.date with h | h | h
    · exact Or.inr (Or.inl h)
    · rcases strLEb_total a.company b.company with hs | hs
      · exact Or.inl (Or.inr ⟨h, hs⟩)
      · exact Or.inr (Or.inr ⟨h.symm, hs⟩)
    · exact Or.inl (Or.inl h)

instance : IsTrans RowR eventRel where
  trans a b c hab hbc := by
    rcases hab with hab | ⟨hdab, hsab⟩
    · rcases hbc with hbc | ⟨hdbc, _⟩
      · exact Or.inl (lt_trans hbc hab)
      · exact Or.inl (hdbc ▸ hab)
    · rcases hbc with hbc | ⟨hdbc, hsbc⟩
      · exact Or.inl (hdab ▸ hbc)
      · exact Or.inr ⟨hdab.trans hdbc, strLEb_trans hsab hsbc⟩

/-- Rows kept by `data[data["return_pct"] <= -abs(threshold)]`
(a `NaN` compares false, so null returns never qualify). -/
def isDipB (t : ℚ) (r : RowR) : Bool :=
  match r.return_pct with
  | some v => v ≤ -|t|
  | none => false

/-- Rows kept by `data[data["return_pct"] >= abs(threshold)]`. -/
def isMomB (t : ℚ) (r : RowR) : Bool :=
  match r.return_pct with
  | some v => |t| ≤ v
  | none => false

/-- The event-table sort. -/
def eventSort (l : List RowR) : List RowR := List.insertionSort eventRel l

/-- `get_dips_and_momentum` from `src/app.py`. -/
def get_dips_and_momentum (data : List RowR) (threshold : ℚ) :
    List RowR × List RowR :=
  if data = [] then ([], [])
  else (eventSort (data.filter (isDipB threshold)),
        eventSort (data.filter (isMomB threshold)))

/-! ### Core lemma for the Return Calculator -/

lemma seqReturns_nil (o : Option ℚ) : seqReturns o [] = [] := by
  cases o <;> rfl

lemma pctChangeGo_entity (c : String) :
    ∀ (rows : List Row) (st : List (String × ℚ)),
      (∀ r ∈ rows, 0 < r.price) →
      (∀ q, lastPrice st c = some q → 0 < q) →
      entityReturns c (pctChangeGo rows st) =
        seqReturns (lastPrice st c) (entityPrices c rows) := by
  intro rows
  induction rows with
  | nil =>
    intro st _ _
    simp [entityReturns, entityPrices, pctChangeGo, seqReturns_nil, List.filter]
  | cons r rest ih =>
    intro st hpos hst
    have hrpos : 0 < r.price := hpos r (by simp)
    have hpos' : ∀ x ∈ rest, 0 < x.price := fun x hx => hpos x (by simp [hx])
    by_cases hc : r.company = c
    · subst hc
      have hlast : lastPrice ((r.company, r.price) :: st) r.company = some r.price := by
        simp [lastPrice]
      have hstate : ∀ q, lastPrice ((r.company, r.price) :: st) r.company = some q → 0 < q := by
        intro q hq
        rw [hlast] at hq
        injection hq with h
        exact h ▸ hrpos
      have ihx := ih ((r.company, r.price) :: st) hpos' hstate
      rw [hlast] at ihx
      simp only [entityReturns, entityPrices] at ihx
      simp only [pctChangeGo, entityReturns, entityPrices, List.filter_cons,
        beq_self_eq_true, if_pos, List.map_cons]
      cases hlp : lastPrice st r.company with
      | none =>
        simp only [seqReturns, Option.map_none]
        exact congrArg (List.cons none) ihx
      | some q =>
        have hq0 : (q : ℚ) ≠ 0 := ne_of_gt (hst q hlp)
        simp only [seqReturns]
        have hhead : Option.map (fun prev => 100 * ((r.price - prev) / prev)) (some q)
            = some (100 * ((r.price - q) / q)) := rfl
        rw [hhead, sub_div, div_self hq0]
        exact congrArg _ ihx
    · have hlast : lastPrice ((r.company, r.price) :: st) c = lastPrice st c := by
        simp [lastPrice, hc]
      have ihx := ih ((r.company, r.price) :: st) hpos' (by rw [hlast]; exact hst)
      rw [hlast] at ihx
      simp only [pctChangeGo, entityReturns, entityPrices, List.filter_cons] at ihx ⊢
      have hbeq : (r.company == c) = false := by
        simp [hc]
      simp only [hbeq, Bool.false_eq_true, if_neg, if_false]
      simpa [entityReturns, entityPrices] using ihx

/-- C1: on a consolidated dataset sorted by `(company, date)` with
positive prices, the Return Calculator gives each company's row sequence
a null first return and `100 * (p_i / p_(i-1) - 1)` afterwards. -/
theorem C1_return_calculator (rows : List Row) (c : String)
    (hsorted : sortedRows rows) (hpos : ∀ r ∈ rows, 0 < r.price) :
    entityReturns c (addReturns rows) = seqReturns none (entityPrices c rows) := by
  have h := pctChangeGo_entity c rows []
    hpos (by intro q hq; simp [lastPrice] at hq)
  simpa [addReturns, lastPrice] using h

def c1Rows : List Row := [⟨"E", 1, 100⟩, ⟨"E", 2, 110⟩, ⟨"E", 3, 99⟩]

/-- Witness for C1: prices 100, 110, 99 on consecutive dates give
returns `[null, 10.0, -10.0]`. -/
theorem C1_return_calculator_witness :
    entityReturns "E" (addReturns c1Rows) = [none, some 10, some (-10)] := by
  have hs : sortedRows c1Rows := by
    simp only [sortedRows, c1Rows, List.chain'_cons, List.chain'_singleton, and_true]
    exact ⟨by right; exact ⟨rfl, by norm_num⟩, by right; exact ⟨rfl, by norm_num⟩⟩
  have hp : ∀ r ∈ c1Rows, 0 < r.price := by
    intro r hr
    simp only [c1Rows, List.mem_cons, List.not_mem_nil, or_false] at hr
    rcases hr with h | h | h <;> subst h <;> norm_num
  rw [C1_return_calculator c1Rows "E" hs hp]
  simp +decide [entityPrices, c1Rows, seqReturns]
  norm_num

/-! ### Event Extractor claims -/

/-- C2: with a positive threshold `t`, the dips table is exactly the rows
with non-null `return_pct ≤ -t`, the momentum table exactly those with
non-null `return_pct ≥ t` (both up to the sort), the boundary being
inclusive, and null-return rows appear in neither. -/
theorem C2_event_extractor (data : List RowR) (t : ℚ) (ht : 0 < t) :
    ((get_dips_and_momentum data t).1).Perm
        (data.filter (fun r => match r.return_pct with
          | some v => decide (v ≤ -t)
          | none => false)) ∧
    ((get_dips_and_momentum data t).2).Perm
        (data.filter (fun r => match r.return_pct with
          | some v => decide (t ≤ v)
          | none => false)) ∧
    (∀ r ∈ data, r.return_pct = none →
      r ∉ (get_dips_and_momentum data t).1 ∧ r ∉ (get_dips_and_momentum data t).2) := by
  have habs : |t| = t := abs_of_pos ht
  have hfun1 : isDipB t = (fun r => match r.return_pct with
      | some v => decide (v ≤ -t)
      | none => false) := by
    funext r
    cases hr : r.return_pct with
    | none => simp [isDipB, hr]
    | some v => simp [isDipB, hr, habs]
  have hfun2 : isMomB t = (fun r => match r.return_pct with
      | some v => decide (t ≤ v)
      | none => false) := by
    funext r
    cases hr : r.return_pct with
    | none => simp [isMomB, hr]
    | some v => simp [isMomB, hr, habs]
  by_cases hd : data = []
  · subst hd
    refine ⟨by simp [get_dips_and_momentum], by simp [get_dips_and_momentum], by simp⟩
  · simp only [get_dips_and_momentum, if_neg hd, eventSort]
    refine ⟨?_, ?_, ?_⟩
    · rw [← hfun1]; exact List.perm_insertionSort _ _
    · rw [← hfun2]; exact List.perm_insertionSort _ _
    · intro r _ hnone
      constructor
      · intro hmem
        have h1 : r ∈ data.filter (isDipB t) :=
          (List.perm_insertionSort eventRel _).mem_iff.1 hmem
        have h2 := List.of_mem_filter h1
        simp [isDipB, hnone] at h2
      · intro hmem
        have h1 : r ∈ data.filter (isMomB t) :=
          (List.perm_insertionSort eventRel _).mem_iff.1 hmem
        have h2 := List.of_mem_filter h1
        simp [isMomB, hnone] at h2

def c2Rows : List RowR :=
  [⟨"E", 1, 90, some (-10)⟩, ⟨"E", 2, 95, some (-999/100)⟩, ⟨"E", 3, 95, none⟩]

/-- Witness for C2 at threshold 10: the `-10.0` row is a dip (inclusive
boundary), the `-9.99` row and the null row are not. -/
theorem C2_event_extractor_witness :
    ((get_dips_and_momentum c2Rows 10).1).Perm [⟨"E", 1, 90, some (-10)⟩] := by
  have h := (C2_event_extractor c2Rows 10 (by norm_num)).1
  have hf : c2Rows.filter (fun r => match r.return_pct with
      | some v => decide (v ≤ -(10 : ℚ))
      | none => false) = [⟨"E", 1, 90, some (-10)⟩] := by
    norm_num [c2Rows, List.filter_cons]
  rw [hf] at h
  exact h

def c3Rows : List RowR := [⟨"B", 5, 100, some 12⟩, ⟨"A", 5, 50, some 15⟩]

/-- C3: both event tables come out sorted by date descending then company
ascending; in particular two qualifying rows on the same date for
companies "B" and "A" are listed "A" first. -/
theorem C3_event_ordering (data : List RowR) (t : ℚ) :
    List.Sorted eventRel (get_dips_and_momentum data t).1 ∧
    List.Sorted eventRel (get_dips_and_momentum data t).2 ∧
    (get_dips_and_momentum c3Rows 10).2 =
      [⟨"A", 5, 50, some 15⟩, ⟨"B", 5, 100, some 12⟩] := by
  have habs10 : |(10 : ℚ)| = 10 := abs_of_pos (by norm_num)
  refine ⟨?_, ?_, ?_⟩
  · by_cases hd : data = []
    · subst hd; simp [get_dips_and_momentum]
    · simp only [get_dips_and_momentum, if_neg hd, eventSort]
      exact List.sorted_insertionSort _ _
  · by_cases hd : data = []
    · subst hd; simp [get_dips_and_momentum]
    · simp only [get_dips_and_momentum, if_neg hd, eventSort]
      exact List.sorted_insertionSort _ _
  · have hfilter : c3Rows.filter (isMomB 10) = c3Rows := by
      norm_num [c3Rows, List.filter_cons, isMomB, habs10]
    have hfilter0 : c3Rows.filter (isDipB 10) = [] := by
      norm_num [c3Rows, List.filter_cons, isDipB, habs10]
    simp only [get_dips_and_momentum, c3Rows, eventSort]
    norm_num [hfilter, hfilter0, List.insertionSort, List.orderedInsert]
    simp +decide [eventRel, strLEb, strLTb, lexLT]

lemma gdm_abs_eq (data : List RowR) {t s : ℚ} (h : |t| = |s|) :
    get_dips_and_momentum data t = get_dips_and_momentum data s := by
  have h1 : isDipB t = isDipB s := by
    funext r
    cases hr : r.return_pct <;> simp [isDipB, hr, h]
  have h2 : isMomB t = isMomB s := by
    funext r
    cases hr : r.return_pct <;> simp [isMomB, hr, h]
  simp [get_dips_and_momentum, h1, h2]

/-- C10: the Event Extractor only sees the absolute value of the
threshold, so a nonzero threshold, its negation and its absolute value
produce identical output. -/
theorem C10_threshold_sign (data : List RowR) (t : ℚ) (ht : t ≠ 0) :
    get_dips_and_momentum data t = get_dips_and_momentum data (-t) ∧
    get_dips_and_momentum data t = get_dips_and_momentum data |t| :=
  ⟨gdm_abs_eq data (abs_neg t).symm, gdm_abs_eq data (abs_abs t).symm⟩

/-- Witness for C10 at threshold 10 on a concrete dataset. -/
theorem C10_threshold_sign_witness :
    get_dips_and_momentum c2Rows 10 = get_dips_and_momentum c2Rows (-10) ∧
    get_dips_and_momentum c2Rows 10 = get_dips_and_momentum c2Rows |10| :=
  C10_threshold_sign c2Rows 10 (by norm_num)

/-! ### Loader / Consolidator -/

/-- What one `pd.read_csv` attempt would deliver for an upload: the raw
header cells and, per data row, the `Date` cell as the tolerant date
parser resolves it (`none` = unparseable) together with the raw `Price`
cell text. -/
structure Table where
  headers : List String
  rows : List (Option ℤ × String)
deriving DecidableEq

/-- One uploaded input: its name plus the outcome of the primary-encoding
`pd.read_csv` and of the `latin-1` retry (`none` = that read raises). -/
structure InFile where
  name : String
  readPrimary : Option Table
  readLatin1 : Option Table
deriving DecidableEq

/-- Lines 89–95 of `src/app.py`: try the primary read; on failure retry
with `latin-1`. The retry is NOT inside a `try`, so when it fails too the
exception escapes `load_and_transform` — modelled as `Except.error ()`. -/
def readFile (f : InFile) : Except Unit Table :=
  match f.readPrimary with
  | some t => Except.ok t
  | none =>
    match f.readLatin1 with
    | some t => Except.ok t
    | none => Except.error ()

/-- Lines 97–130 of `src/app.py` for one parsed file: trim the headers,
require `Date` and `Price` (otherwise the file is skipped with a
warning, i.e. `none`), resolve the company from the filename, keep only
rows with a parsed date and a parsed price. -/
def processTable (fname : String) (t : Table) : Option (List Row) :=
  let cols := t.headers.map trimStr
  if "Date" ∈ cols ∧ "Price" ∈ cols then
    some (t.rows.filterMap (fun dp =>
      match dp.1, clean_numeric_column dp.2 with
      | some d, some p => some ⟨infer_company_name fname, d, p⟩
      | _, _ => none))
  else none

/-- The `frames` accumulation loop of `load_and_transform`: a frame is
appended for every file with the required columns (even an empty one),
a file without them is skipped, and a file whose two reads both fail
raises out of the whole loop. -/
def loadFrames : List InFile → Except Unit (List (List Row))
  | [] => Except.ok []
  | f :: fs =>
    match readFile f with
    | Except.error e => Except.error e
    | Except.ok t =>
      match loadFrames fs with
      | Except.error e => Except.error e
      | Except.ok rest =>
        match processTable f.name t with
        | some rows => Except.ok (rows :: rest)
        | none => Except.ok rest

/-- `load_and_transform` from `src/app.py`: accumulate per-file frames;
with no frames return the empty consolidated frame; otherwise
concatenate, sort by `(company, date)` and add `return_pct`. -/
def load_and_transform (files : List InFile) : Except Unit (List RowR) :=
  match loadFrames files with
  | Except.error e => Except.error e
  | Except.ok frames =>
    if frames = [] then Except.ok []
    else Except.ok (addReturns (sortRows frames.flatten))

/-! ### Loader lemmas -/

lemma loadFrames_ok_mem :
    ∀ {files : List InFile} {frames : List (List Row)},
      loadFrames files = Except.ok frames →
      ∀ fr ∈ frames, ∃ f ∈ files, ∃ t, readFile f = Except.ok t ∧
        processTable f.name t = some fr := by
  intro files
  induction files with
  | nil =>
    intro frames h fr hfr
    simp only [loadFrames] at h
    injection h with h
    subst h
    simp at hfr
  | cons f fs ih =>
    intro frames h fr hfr
    simp only [loadFrames] at h
    split at h
    next e heq => cases h
    next t heq =>
      split at h
      next e heq2 => cases h
      next rest heq2 =>
        split at h
        next rows heq3 =>
          injection h with h
          subst h
          rcases List.mem_cons.1 hfr with hfr | hfr
          · subst hfr
            exact ⟨f, by simp, t, heq, heq3⟩
          · obtain ⟨g, hg, t', ht', hp'⟩ := ih heq2 fr hfr
            exact ⟨g, by simp [hg], t', ht', hp'⟩
        next heq3 =>
          injection h with h
          subst h
          obtain ⟨g, hg, t', ht', hp'⟩ := ih heq2 fr hfr
          exact ⟨g, by simp [hg], t', ht', hp'⟩

lemma loadFrames_isOk :
    ∀ {files : List InFile},
      (∀ f ∈ files, ∃ t, readFile f = Except.ok t) →
      ∃ frames, loadFrames files = Except.ok frames := by
  intro files
  induction files with
  | nil => intro _; exact ⟨[], rfl⟩
  | cons f fs ih =>
    intro hread
    obtain ⟨t, ht⟩ := hread f (by simp)
    obtain ⟨frames, hf⟩ := ih (fun g hg => hread g (by simp [hg]))
    cases hpt : processTable f.name t with
    | none => exact ⟨frames, by simp only [loadFrames, ht, hf, hpt]⟩
    | some rows => exact ⟨rows :: frames, by simp only [loadFrames, ht, hf, hpt]⟩

lemma pctChangeGo_company :
    ∀ (rows : List Row) (st : List (String × ℚ)) (x : RowR),
      x ∈ pctChangeGo rows st → ∃ r ∈ rows, x.company = r.company := by
  intro rows
  induction rows with
  | nil => intro st x hx; simp [pctChangeGo] at hx
  | cons r rest ih =>
    intro st x hx
    simp only [pctChangeGo, List.mem_cons] at hx
    rcases hx with hx | hx
    · exact ⟨r, by simp, by rw [hx]⟩
    · obtain ⟨r', hr', he⟩ := ih _ x hx
      exact ⟨r', by simp [hr'], he⟩

lemma processTable_company {fname : String} {t : Table} {rows : List Row}
    (h : processTable fname t = some rows) :
    ∀ r ∈ rows, r.company = infer_company_name fname := by
  intro r hr
  simp only [processTable] at h
  split at h
  · injection h with h
    subst h
    obtain ⟨dp, _, hdp⟩ := List.mem_filterMap.1 hr
    cases hd : dp.1 with
    | none => rw [hd] at hdp; cases hdp
    | some d =>
      rw [hd] at hdp
      cases hc : clean_numeric_column dp.2 with
      | none => rw [hc] at hdp; cases hdp
      | some p =>
        rw [hc] at hdp
        injection hdp with hdp
        rw [← hdp]
  · cases h

lemma load_company {files : List InFile} {out : List RowR}
    (h : load_and_transform files = Except.ok out) :
    ∀ x ∈ out, ∃ f ∈ files, x.company = infer_company_name f.name := by
  intro x hx
  simp only [load_and_transform] at h
  split at h
  next e heq => cases h
  next frames heq =>
    by_cases hfe : frames = []
    · rw [if_pos hfe] at h
      injection h with h
      subst h
      simp at hx
    · rw [if_neg hfe] at h
      injection h with h
      subst h
      obtain ⟨r, hr, he⟩ := pctChangeGo_company _ _ x hx
      have hr2 : r ∈ frames.flatten :=
        ((List.perm_insertionSort consLE frames.flatten).mem_iff).1 hr
      obtain ⟨fr, hfr, hrfr⟩ := List.mem_flatten.1 hr2
      obtain ⟨f, hf, t, ht, hp⟩ := loadFrames_ok_mem heq fr hfr
      exact ⟨f, hf, by rw [he, processTable_company hp r hrfr]⟩

/-! ### C7: empty result, not an error -/

/-- C7: when every input is readable and no input contributes a valid
row, the loader returns the empty consolidated dataset (`Except.ok []`,
whose type carries the full `company`/`date`/`price`/`return_pct` row
shape) rather than an error. -/
theorem C7_empty_input (files : List InFile)
    (hread : ∀ f ∈ files, ∃ t, readFile f = Except.ok t)
    (hempty : ∀ f ∈ files, ∀ t, readFile f = Except.ok t →
      ∀ rows, processTable f.name t = some rows → rows = []) :
    load_and_transform files = Except.ok [] := by
  obtain ⟨frames, hlf⟩ := loadFrames_isOk hread
  have hall : ∀ fr ∈ frames, fr = ([] : List Row) := by
    intro fr hfr
    obtain ⟨f, hf, t, ht, hp⟩ := loadFrames_ok_mem hlf fr hfr
    exact hempty f hf t ht fr hp
  simp only [load_and_transform, hlf]
  by_cases hfe : frames = []
  · rw [if_pos hfe]
  · rw [if_neg hfe]
    have hj : frames.flatten = [] := List.flatten_eq_nil_iff.2 hall
    rw [hj]
    rfl

def fileNoCols : InFile := ⟨"x.csv", some ⟨["A"], []⟩, none⟩

def fileNoRows : InFile := ⟨"y.csv", some ⟨["Date", "Price"], [(none, "abc")]⟩, none⟩

/-- Witness for C7: one file without the required columns and one whose
single row has an unparseable date and price yield `Except.ok []`. -/
theorem C7_empty_input_witness :
    load_and_transform [fileNoCols, fileNoRows] = Except.ok [] := by
  apply C7_empty_input
  · intro f hf
    simp only [List.mem_cons, List.not_mem_nil, or_false] at hf
    rcases hf with hf | hf <;> subst hf
    · exact ⟨_, rfl⟩
    · exact ⟨_, rfl⟩
  · intro f hf t ht rows hrows
    simp only [List.mem_cons, List.not_mem_nil, or_false] at hf
    rcases hf with hf | hf <;> subst hf
    · simp only [readFile, fileNoCols] at ht
      injection ht with ht
      subst ht
      simp only [fileNoCols] at hrows
      rw [show processTable "x.csv" ⟨["A"], []⟩ = none from by decide] at hrows
      cases hrows
    · simp only [readFile, fileNoRows] at ht
      injection ht with ht
      subst ht
      simp only [fileNoRows] at hrows
      rw [show processTable "y.csv" ⟨["Date", "Price"], [(none, "abc")]⟩ = some []
        from by decide] at hrows
      injection hrows with hrows
      exact hrows.symm

/-! ### C8 / C9: concrete load evaluations -/

/-- An upload whose stream fails `pd.read_csv` under both encodings
(e.g. an empty byte stream raises `EmptyDataError` both times). -/
def fileBad : InFile := ⟨"empty.csv", none, none⟩

def goodTable : Table := ⟨["Date", "Price"], [(some 1, "100")]⟩

def fileGood : InFile := ⟨"Boeing.csv", some goodTable, none⟩

/-- An upload whose primary read fails but whose `latin-1` retry works. -/
def fileFallback : InFile := ⟨"fall.csv", none, some goodTable⟩

lemma load_single_good :
    load_and_transform [fileGood] = Except.ok [⟨"Boeing", 1, 100, none⟩] := by
  rfl

/-- C8, evaluated: the `latin-1` retry does rescue a file whose primary
read fails, but a file failing both reads makes `load_and_transform`
raise (`Except.error`), discarding even the good remaining input —
there is no per-file warning/skip for this case in the code. -/
theorem C8_decode_failure :
    readFile fileFallback = Except.ok goodTable ∧
    load_and_transform [fileBad, fileGood] = Except.error () ∧
    load_and_transform [fileGood] = Except.ok [⟨"Boeing", 1, 100, none⟩] :=
  ⟨rfl, rfl, load_single_good⟩

/-- Counterexample to C7 as stated: a batch whose only input fails both
read attempts yields zero valid rows, yet the loader raises
(`Except.error`) instead of returning the empty dataset. -/
theorem C7_empty_input_cex :
    load_and_transform [fileBad] = Except.error () :=
  rfl

/-! ### C9: entity labels -/

def hiddenTable : Table := ⟨["Date", "Price"], [(some 5, "10")]⟩

/-- A dot-file upload: `".csv".rsplit(".", 1)[0]` is the empty string. -/
def fileHidden : InFile := ⟨".csv", some hiddenTable, none⟩

/-- Counterexample to C9 as stated: a valid upload named `".csv"` loads
into a PricePoint whose `company` is the empty string, because
`infer_company_name ".csv"` strips the extension and returns `""`. -/
theorem C9_nonempty_entity_cex :
    load_and_transform [fileHidden] =
      Except.ok [{ company := "", date := 5, price := 10, return_pct := none }] := by
  rfl

lemma infer_company_name_ne_empty {s : String}
    (h : stripExt s ≠ "" ∨ ∃ q ∈ COMPANY_LABELS, containsCh q.1.data (lowerStr s).data = true) :
    infer_company_name s ≠ "" := by
  simp only [infer_company_name]
  cases hf : COMPANY_LABELS.find? (fun kv => containsCh kv.1.data (lowerStr s).data) with
  | none =>
    rcases h with h | ⟨q, hq, hqc⟩
    · exact h
    · have hnone := List.find?_eq_none.1 hf q hq
      simp [hqc] at hnone
  | some kv =>
    have hmem : kv ∈ COMPANY_LABELS := List.mem_of_find?_eq_some hf
    simp only [COMPANY_LABELS, List.mem_cons, List.not_mem_nil, or_false] at hmem
    rcases hmem with h' | h' | h' | h' | h' <;> subst h' <;> simp

/-- C9 amended: provided every upload's name either keeps a non-empty
stem after the extension is stripped or contains an alias of the company
table (a name like `".csv"` violates both), every row of a successful
load carries a non-empty `company`. -/
theorem C9_nonempty_entity_amended (files : List InFile) (out : List RowR)
    (hok : load_and_transform files = Except.ok out)
    (hname : ∀ f ∈ files, stripExt f.name ≠ "" ∨
      ∃ q ∈ COMPANY_LABELS, containsCh q.1.data (lowerStr f.name).data = true) :
    ∀ r ∈ out, r.company ≠ "" := by
  intro r hr
  obtain ⟨f, hf, he⟩ := load_company hok r hr
  rw [he]
  exact infer_company_name_ne_empty (hname f hf)

/-- Witness for the amended C9 on a one-file batch. -/
theorem C9_nonempty_entity_witness :
    ({ company := "Boeing", date := 1, price := 100, return_pct := none } : RowR).company ≠ "" := by
  have h := C9_nonempty_entity_amended [fileGood] _ load_single_good (by
    intro f hf
    simp only [List.mem_cons, List.not_mem_nil, or_false] at hf
    subst hf
    exact Or.inl (by decide))
  exact h _ (by simp)

/-! ### Summary Aggregator -/

/-- Python `round(q)`: nearest integer, ties to the even one. -/
def roundHE (q : ℚ) : ℤ :=
  if q - ⌊q⌋ < 1/2 then ⌊q⌋
  else if (1 : ℚ)/2 < q - ⌊q⌋ then ⌊q⌋ + 1
  else if ⌊q⌋ % 2 = 0 then ⌊q⌋ else ⌊q⌋ + 1

/-- Python `round(x, 2)` on exact rationals. -/
def round2 (x : ℚ) : ℚ := (roundHE (100 * x) : ℚ) / 100

/-- `round(Real.sqrt x, 2)` computed exactly for `x ≥ 0`:
`⌊√(10000·x)⌋` is obtained through `Nat.sqrt` on a scaled integer, and
the tie test compares `10000·x` with `(n + 1/2)²`. -/
def sqrtRound2 (x : ℚ) : ℚ :=
  let y := 10000 * x
  let n := Nat.sqrt (y.num.toNat * y.den) / y.den
  if y < ((2 * n + 1 : ℚ)) ^ 2 / 4 then (n : ℚ) / 100
  else if ((2 * n + 1 : ℚ)) ^ 2 / 4 < y then ((n : ℚ) + 1) / 100
  else if n % 2 = 0 then (n : ℚ) / 100 else ((n : ℚ) + 1) / 100

def sampleMean (vs : List ℚ) : ℚ := vs.sum / vs.length

/-- The sample variance with `ddof = 1` (what `Series.std` squares). -/
def sampleVar (vs : List ℚ) : ℚ :=
  ((vs.map (fun x => (x - sampleMean vs) ^ 2)).sum) / ((vs.length : ℚ) - 1)

/-- One row of the `compute_summary_stats` output table. All numeric
fields carry the `round(·, 2)` the code applies; `vol` is the rounded
sample standard deviation, held as `sqrtRound2` of the sample variance
(the exact-rational form of `round(std, 2)`). -/
structure SummaryRec where
  company : String
  first_price : ℚ
  last_price : ℚ
  total_return : Option ℚ
  vol : Option ℚ
  max_up : Option ℚ
  max_down : Option ℚ
deriving DecidableEq

/-- Key of the in-group `df_c.sort_values("date")`. -/
def dateLE (a b : RowR) : Prop := a.date ≤ b.date

instance : DecidableRel dateLE := fun a b =>
  inferInstanceAs (Decidable (a.date ≤ b.date))

instance : IsTotal RowR dateLE := ⟨fun a b => Int.le_total a.date b.date⟩

instance : IsTrans RowR dateLE := ⟨fun _ _ _ h1 h2 => le_trans h1 h2⟩

def byDate (l : List RowR) : List RowR := List.insertionSort dateLE l

def strLE (s t : String) : Prop := strLEb s t = true

instance : DecidableRel strLE := fun s t =>
  inferInstanceAs (Decidable (strLEb s t = true))

/-- The group keys of `data.groupby("company")`: distinct companies in
ascending order. -/
def companiesSorted (data : List RowR) : List String :=
  (List.insertionSort strLE (data.map RowR.company)).dedup

/-- The per-group body of `compute_summary_stats` (lines 155–177):
sort the group by date, read off first/last price, guard the total
return by `first_price > 0`, take std/max/min of the non-null returns,
and round everything to 2 decimals. -/
def summaryFor (data : List RowR) (c : String) : Option SummaryRec :=
  match byDate (data.filter (fun r => r.company == c)) with
  | [] => none
  | r0 :: rest =>
    some { company := c,
           first_price := round2 r0.price,
           last_price := round2 (((r0 :: rest).getLastD r0).price),
           total_return := (if 0 < r0.price
             then some (((((r0 :: rest).getLastD r0).price) / r0.price - 1) * 100)
             else none).map round2,
           vol := if ((r0 :: rest).filterMap RowR.return_pct).length < 2 then none
             else some (sqrtRound2 (sampleVar ((r0 :: rest).filterMap RowR.return_pct))),
           max_up := ((r0 :: rest).filterMap RowR.return_pct).max?.map round2,
           max_down := ((r0 :: rest).filterMap RowR.return_pct).min?.map round2 }

/-- `compute_summary_stats` from `src/app.py`. -/
def compute_summary_stats (data : List RowR) : List SummaryRec :=
  if data = [] then []
  else (companiesSorted data).filterMap (summaryFor data)

/-! ### Helper lemmas for C4 -/

lemma foldl_max_spec : ∀ (l : List ℚ) (a : ℚ),
    a ≤ l.foldl max a ∧ (l.foldl max a = a ∨ l.foldl max a ∈ l) ∧
      ∀ x ∈ l, x ≤ l.foldl max a := by
  intro l
  induction l with
  | nil => intro a; exact ⟨le_refl a, Or.inl rfl, by simp⟩
  | cons b bs ih =>
    intro a
    obtain ⟨h1, h2, h3⟩ := ih (max a b)
    refine ⟨le_trans (le_max_left a b) h1, ?_, ?_⟩
    · rcases h2 with h2 | h2
      · rcases max_choice a b with hm | hm
        · exact Or.inl (by rw [List.foldl_cons, h2, hm])
        · exact Or.inr (by rw [List.foldl_cons, h2, hm]; exact List.mem_cons_self b bs)
      · exact Or.inr (List.mem_cons_of_mem b h2)
    · intro x hx
      rcases List.mem_cons.1 hx with hx | hx
      · subst hx
        exact le_trans (le_max_right a x) h1
      · exact h3 x hx

lemma foldl_min_spec : ∀ (l : List ℚ) (a : ℚ),
    l.foldl min a ≤ a ∧ (l.foldl min a = a ∨ l.foldl min a ∈ l) ∧
      ∀ x ∈ l, l.foldl min a ≤ x := by
  intro l
  induction l with
  | nil => intro a; exact ⟨le_refl a, Or.inl rfl, by simp⟩
  | cons b bs ih =>
    intro a
    obtain ⟨h1, h2, h3⟩ := ih (min a b)
    refine ⟨le_trans h1 (min_le_left a b), ?_, ?_⟩
    · rcases h2 with h2 | h2
      · rcases min_choice a b with hm | hm
        · exact Or.inl (by rw [List.foldl_cons, h2, hm])
        · exact Or.inr (by rw [List.foldl_cons, h2, hm]; exact List.mem_cons_self b bs)
      · exact Or.inr (List.mem_cons_of_mem b h2)
    · intro x hx
      rcases List.mem_cons.1 hx with hx | hx
      · subst hx
        exact le_trans h1 (min_le_right a x)
      · exact h3 x hx

lemma max?_spec {l : List ℚ} {m : ℚ} (h : l.max? = some m) :
    m ∈ l ∧ ∀ x ∈ l, x ≤ m := by
  cases l with
  | nil => cases h
  | cons a as =>
    injection h with h
    subst h
    obtain ⟨h1, h2, h3⟩ := foldl_max_spec as a
    constructor
    · rcases h2 with h2 | h2
      · rw [h2]; exact List.mem_cons_self a as
      · exact List.mem_cons_of_mem a h2
    · intro x hx
      rcases List.mem_cons.1 hx with hx | hx
      · subst hx; exact h1
      · exact h3 x hx

lemma min?_spec {l : List ℚ} {m : ℚ} (h : l.min? = some m) :
    m ∈ l ∧ ∀ x ∈ l, m ≤ x := by
  cases l with
  | nil => cases h
  | cons a as =>
    injection h with h
    subst h
    obtain ⟨h1, h2, h3⟩ := foldl_min_spec as a
    constructor
    · rcases h2 with h2 | h2
      · rw [h2]; exact List.mem_cons_self a as
      · exact List.mem_cons_of_mem a h2
    · intro x hx
      rcases List.mem_cons.1 hx with hx | hx
      · subst hx; exact h1
      · exact h3 x hx

lemma sampleVar_perm {l1 l2 : List ℚ} (h : l1.Perm l2) : sampleVar l1 = sampleVar l2 := by
  have hm : sampleMean l1 = sampleMean l2 := by
    simp [sampleMean, h.sum_eq, h.length_eq]
  simp only [sampleVar, hm, h.length_eq,
    (h.map (fun x => (x - sampleMean l2) ^ 2)).sum_eq]

lemma getLastD_mem : ∀ (l : List RowR) (d : RowR), l ≠ [] → l.getLastD d ∈ l := by
  intro l
  induction l with
  | nil => intro d h; exact absurd rfl h
  | cons a as ih =>
    intro d _
    cases has : as with
    | nil => simp [List.getLastD_cons]
    | cons b bs =>
      rw [List.getLastD_cons]
      rw [← has]
      exact List.mem_cons_of_mem a (ih a (by rw [has]; exact List.cons_ne_nil b bs))

lemma sorted_le_getLastD : ∀ {l : List RowR} (d : RowR), List.Sorted dateLE l →
    ∀ x ∈ l, x.date ≤ (l.getLastD d).date := by
  intro l
  induction l with
  | nil => intro d _ x hx; simp at hx
  | cons a as ih =>
    intro d hs x hx
    have hs2 := List.sorted_cons.1 hs
    cases has : as with
    | nil =>
      subst has
      simp only [List.getLastD_cons]
      rcases List.mem_cons.1 hx with hx | hx
      · exact le_of_eq (congrArg RowR.date hx)
      · simp at hx
    | cons b bs =>
      rw [List.getLastD_cons]
      rcases List.mem_cons.1 hx with hx | hx
      · subst hx
        have hmem : as.getLastD x ∈ as := getLastD_mem as x (by rw [has]; exact List.cons_ne_nil b bs)
        rw [← has]
        exact hs2.1 _ hmem
      · rw [← has]
        exact ih a hs2.2 x (has ▸ hx)

/-- The non-null `return_pct` values of one entity (what
`df_c["return_pct"].std()/max()/min()` aggregate over, `skipna`). -/
def entityRets (c : String) (data : List RowR) : List ℚ :=
  (data.filter (fun r => r.company == c)).filterMap RowR.return_pct

/-- C4 (amended by rounding): every entity of the dataset gets a summary
record whose `first_price`/`last_price` are the prices of an
earliest/latest row of that entity rounded to 2 decimals, whose
`total_return` is `100 * (last/first - 1)` rounded when `first > 0` and
null otherwise, whose `vol` is the rounded sample standard deviation of
the entity's non-null returns (null when there are fewer than 2), and
whose `max_up`/`max_down` are the rounded max/min of those returns (null
exactly when there are none). -/
theorem C4_summary_aggregator (data : List RowR) (c : String)
    (hc : c ∈ data.map RowR.company) :
    ∃ rec ∈ compute_summary_stats data,
      rec.company = c ∧
      (∃ r0 ∈ data, r0.company = c ∧ (∀ r ∈ data, r.company = c → r0.date ≤ r.date) ∧
        rec.first_price = round2 r0.price ∧
        ∃ r1 ∈ data, r1.company = c ∧ (∀ r ∈ data, r.company = c → r.date ≤ r1.date) ∧
          rec.last_price = round2 r1.price ∧
          rec.total_return = (if 0 < r0.price
            then some (round2 (100 * (r1.price / r0.price - 1))) else none)) ∧
      rec.vol = (if (entityRets c data).length < 2 then none
        else some (sqrtRound2 (sampleVar (entityRets c data)))) ∧
      (entityRets c data = [] → rec.max_up = none ∧ rec.max_down = none) ∧
      (∀ m, rec.max_up = some m → ∃ v ∈ entityRets c data,
        m = round2 v ∧ ∀ x ∈ entityRets c data, x ≤ v) ∧
      (∀ m, rec.max_down = some m → ∃ v ∈ entityRets c data,
        m = round2 v ∧ ∀ x ∈ entityRets c data, v ≤ x) ∧
      (entityRets c data ≠ [] → rec.max_up ≠ none ∧ rec.max_down ≠ none) := by
  obtain ⟨w, hw, hwc⟩ := List.mem_map.1 hc
  have hwgrp : w ∈ data.filter (fun r => r.company == c) :=
    List.mem_filter.2 ⟨hw, by simp [hwc]⟩
  have hperm : (byDate (data.filter (fun r => r.company == c))).Perm
      (data.filter (fun r => r.company == c)) :=
    List.perm_insertionSort dateLE _
  have hne : byDate (data.filter (fun r => r.company == c)) ≠ [] := by
    intro h0
    have hin := hperm.mem_iff.2 hwgrp
    rw [h0] at hin
    simp at hin
  cases heq : byDate (data.filter (fun r => r.company == c)) with
  | nil => exact absurd heq hne
  | cons r0 rest =>
    have hsortg : List.Sorted dateLE (r0 :: rest) := by
      rw [← heq]
      exact List.sorted_insertionSort _ _
    have hgperm : (r0 :: rest).Perm (data.filter (fun r => r.company == c)) := by
      rw [← heq]
      exact hperm
    have hmem_g : ∀ x ∈ r0 :: rest, x ∈ data ∧ x.company = c := by
      intro x hx
      have hxf := hgperm.mem_iff.1 hx
      have := List.mem_filter.1 hxf
      exact ⟨this.1, by simpa using this.2⟩
    have hall_in_g : ∀ r ∈ data, r.company = c → r ∈ r0 :: rest := by
      intro r hr hrc
      exact hgperm.mem_iff.2 (List.mem_filter.2 ⟨hr, by simp [hrc]⟩)
    have hpr : ((r0 :: rest).filterMap RowR.return_pct).Perm (entityRets c data) :=
      hgperm.filterMap _
    refine ⟨{ company := c,
              first_price := round2 r0.price,
              last_price := round2 (((r0 :: rest).getLastD r0).price),
              total_return := (if 0 < r0.price
                then some (((((r0 :: rest).getLastD r0).price) / r0.price - 1) * 100)
                else none).map round2,
              vol := if ((r0 :: rest).filterMap RowR.return_pct).length < 2 then none
                else some (sqrtRound2 (sampleVar ((r0 :: rest).filterMap RowR.return_pct))),
              max_up := ((r0 :: rest).filterMap RowR.return_pct).max?.map round2,
              max_down := ((r0 :: rest).filterMap RowR.return_pct).min?.map round2 },
            ?_, rfl, ?_, ?_, ?_, ?_, ?_, ?_⟩
    · have hdata_ne : data ≠ [] := by
        intro h0
        subst h0
        simp at hc
      unfold compute_summary_stats
      rw [if_neg hdata_ne]
      apply List.mem_filterMap.2
      refine ⟨c, ?_, ?_⟩
      · unfold companiesSorted
        rw [List.mem_dedup]
        exact (List.perm_insertionSort strLE _).mem_iff.2 hc
      · unfold summaryFor
        rw [heq]
    · refine ⟨r0, (hmem_g r0 (by simp)).1, (hmem_g r0 (by simp)).2, ?_, rfl,
        (r0 :: rest).getLastD r0,
        (hmem_g _ (getLastD_mem _ r0 (List.cons_ne_nil r0 rest))).1,
        (hmem_g _ (getLastD_mem _ r0 (List.cons_ne_nil r0 rest))).2, ?_, rfl, ?_⟩
      · intro r hr hrc
        rcases List.mem_cons.1 (hall_in_g r hr hrc) with hx | hx
        · exact le_of_eq (congrArg RowR.date hx.symm)
        · exact (List.sorted_cons.1 hsortg).1 r hx
      · intro r hr hrc
        exact sorted_le_getLastD r0 hsortg r (hall_in_g r hr hrc)
      · by_cases hp : 0 < r0.price
        · simp only [if_pos hp, Option.map]
          rw [mul_comm (((r0 :: rest).getLastD r0).price / r0.price - 1) 100]
        · simp only [if_neg hp, Option.map]
    · show (if ((r0 :: rest).filterMap RowR.return_pct).length < 2 then none
          else some (sqrtRound2 (sampleVar ((r0 :: rest).filterMap RowR.return_pct)))) = _
      rw [hpr.length_eq, sampleVar_perm hpr]
    · intro h0
      have hnil : (r0 :: rest).filterMap RowR.return_pct = [] := by
        have := hpr
        rw [h0] at this
        exact this.eq_nil
      constructor
      · show ((r0 :: rest).filterMap RowR.return_pct).max?.map round2 = none
        rw [hnil]
        rfl
      · show ((r0 :: rest).filterMap RowR.return_pct).min?.map round2 = none
        rw [hnil]
        rfl
    · intro m hm
      obtain ⟨v, hv, hmv⟩ := Option.map_eq_some'.1 hm
      obtain ⟨hvmem, hvub⟩ := max?_spec hv
      exact ⟨v, hpr.mem_iff.1 hvmem, hmv.symm,
        fun x hx => hvub x (hpr.mem_iff.2 hx)⟩
    · intro m hm
      obtain ⟨v, hv, hmv⟩ := Option.map_eq_some'.1 hm
      obtain ⟨hvmem, hvlb⟩ := min?_spec hv
      exact ⟨v, hpr.mem_iff.1 hvmem, hmv.symm,
        fun x hx => hvlb x (hpr.mem_iff.2 hx)⟩
    · intro h0
      have hne2 : (r0 :: rest).filterMap RowR.return_pct ≠ [] := by
        intro hnil
        rw [hnil] at hpr
        exact h0 (hpr.symm.eq_nil)
      obtain ⟨a, as, hcase⟩ := List.exists_cons_of_ne_nil hne2
      constructor
      · show ((r0 :: rest).filterMap RowR.return_pct).max?.map round2 ≠ none
        rw [hcase]
        simp [List.max?]
      · show ((r0 :: rest).filterMap RowR.return_pct).min?.map round2 ≠ none
        rw [hcase]
        simp [List.min?]

def c4cexRows : List RowR := [⟨"E", 1, 3, none⟩, ⟨"E", 2, 4, some 25⟩]

/-- Counterexample to C4 as stated: with first price 3 and last price 4,
the record's total return is `33.33` (the code rounds to 2 decimals),
not the claimed exact `100 * (4/3 - 1) = 100/3`. -/
theorem C4_summary_cex :
    compute_summary_stats c4cexRows =
      [{ company := "E", first_price := 3, last_price := 4,
         total_return := some (3333/100), vol := none,
         max_up := some 25, max_down := some 25 }] ∧
    (3333/100 : ℚ) ≠ 100 * ((4 : ℚ) / 3 - 1) := by
  constructor
  · have h0 : compute_summary_stats c4cexRows =
        [{ company := "E", first_price := round2 3, last_price := round2 4,
           total_return := some (round2 ((4 / (3 : ℚ) - 1) * 100)), vol := none,
           max_up := some (round2 25), max_down := some (round2 25) }] := rfl
    rw [h0]
    norm_num [round2, roundHE]
  · norm_num

def c4Rows : List RowR := [⟨"E", 1, 50, none⟩, ⟨"E", 2, 100, some 100⟩]

/-- Witness for C4: prices `[50, 100]` give `total_return = 100.0` and a
single non-null return gives `vol = null`. -/
theorem C4_summary_aggregator_witness :
    (∃ rec ∈ compute_summary_stats c4Rows,
      rec.company = "E" ∧
      (∃ r0 ∈ c4Rows, r0.company = "E" ∧
        (∀ r ∈ c4Rows, r.company = "E" → r0.date ≤ r.date) ∧
        rec.first_price = round2 r0.price ∧
        ∃ r1 ∈ c4Rows, r1.company = "E" ∧
          (∀ r ∈ c4Rows, r.company = "E" → r.date ≤ r1.date) ∧
          rec.last_price = round2 r1.price ∧
          rec.total_return = (if 0 < r0.price
            then some (round2 (100 * (r1.price / r0.price - 1))) else none)) ∧
      rec.vol = (if (entityRets "E" c4Rows).length < 2 then none
        else some (sqrtRound2 (sampleVar (entityRets "E" c4Rows)))) ∧
      (entityRets "E" c4Rows = [] → rec.max_up = none ∧ rec.max_down = none) ∧
      (∀ m, rec.max_up = some m → ∃ v ∈ entityRets "E" c4Rows,
        m = round2 v ∧ ∀ x ∈ entityRets "E" c4Rows, x ≤ v) ∧
      (∀ m, rec.max_down = some m → ∃ v ∈ entityRets "E" c4Rows,
        m = round2 v ∧ ∀ x ∈ entityRets "E" c4Rows, v ≤ x) ∧
      (entityRets "E" c4Rows ≠ [] → rec.max_up ≠ none ∧ rec.max_down ≠ none)) ∧
    compute_summary_stats c4Rows =
      [{ company := "E", first_price := 50, last_price := 100,
         total_return := some 100, vol := none,
         max_up := some 100, max_down := some 100 }] := by
  constructor
  · exact C4_summary_aggregator c4Rows "E" (by simp [c4Rows])
  · have h0 : compute_summary_stats c4Rows =
        [{ company := "E", first_price := round2 50, last_price := round2 100,
           total_return := some (round2 ((100 / (50 : ℚ) - 1) * 100)), vol := none,
           max_up := some (round2 100), max_down := some (round2 100) }] := rfl
    rw [h0]
    norm_num [round2, roundHE]

/-! ### C5 / C6: Value Normalizer and Entity Resolver -/

/-- C5: the Value Normalizer strips no-break spaces, spaces,
thousands-commas and the dollar sign and parses the rest as a decimal:
`"1,234.56"`, `"$1,234.56"` and `"1 234.56"` all give `1234.56`,
non-numeric text like `"abc"` coerces to `none` instead of raising, and
in general the normalizer is exactly strip-then-parse (a total function,
so no input can raise). -/
theorem C5_value_normalizer :
    clean_numeric_column "1,234.56" = some (1234.56 : ℚ) ∧
    clean_numeric_column "$1,234.56" = some (1234.56 : ℚ) ∧
    clean_numeric_column "1 234.56" = some (1234.56 : ℚ) ∧
    clean_numeric_column "abc" = none ∧
    ∀ s : String, clean_numeric_column s = parseNumCh (stripMoney s) := by
  refine ⟨?_, ?_, ?_, by decide, fun s => rfl⟩ <;>
  · simp +decide [clean_numeric_column, parseNumCh, stripMoney, parseSigned, parseMant,
      isDigitCh, allDigits]
    norm_num [show natOfDigits ['1', '2', '3', '4'] = 1234 from by decide,
      show natOfDigits ['5', '6'] = 56 from by decide]

/-- C6: the Entity Resolver lower-cases the incoming label and returns
the canonical name attached to the first alias-table entry occurring in
it as a substring; with no match it returns the label minus its trailing
extension. It is a plain total function (pure, deterministic, always a
string); the two sample labels resolve to "Boeing" and
"unknown_ticker". -/
theorem C6_entity_resolver :
    infer_company_name "Boeing Stock Price History.csv" = "Boeing" ∧
    infer_company_name "unknown_ticker.csv" = "unknown_ticker" ∧
    (∀ (s : String) (kv : String × String),
      COMPANY_LABELS.find? (fun q => containsCh q.1.data (lowerStr s).data) = some kv →
      infer_company_name s = kv.2) ∧
    (∀ s : String,
      (∀ q ∈ COMPANY_LABELS, containsCh q.1.data (lowerStr s).data = false) →
      infer_company_name s = stripExt s) := by
  refine ⟨by decide, by decide, ?_, ?_⟩
  · intro s kv h
    simp only [infer_company_name, h]
  · intro s h
    have hf : COMPANY_LABELS.find? (fun q => containsCh q.1.data (lowerStr s).data) = none :=
      List.find?_eq_none.2 (fun q hq => by simp [h q hq])
    simp only [infer_company_name, hf]
